import Mathlib

/-!
Verification development for the quant trading engine core:
signal generators (Momentum, MeanReversion, StatisticalArbitrage),
the backtesting engine, and the risk engine.

Price series are modelled as lists of rationals (one close per dated row,
dates strictly increasing), signal series as lists of integers, and
missing values (pandas NaN) as `Option.none`.
-/

namespace Quant

/-- pandas `Series.rolling(window=w).mean()` over a list of closes:
entry `t` is the mean of the `w` values ending at `t`, and is missing
(`none`) for the first `w - 1` entries, where fewer than `w` observations
are available. -/
def rollingMean (w : Nat) (xs : List ℚ) : List (Option ℚ) :=
  (List.range xs.length).map (fun t =>
    if t + 1 < w then none
    else some (((xs.drop (t + 1 - w)).take w).sum / (w : ℚ)))

/-- `MomentumStrategy.generate_signals`: compare close with its rolling mean;
`close > rolling_mean` is `True → 1`, and `False → -1` via
`.astype(int).replace(0, -1)`.  A missing rolling mean compares as `False`
(pandas NaN comparison), hence yields `-1`. -/
def momentum_generate_signals (window : Nat) (closes : List ℚ) : List ℤ :=
  List.zipWith (fun c m =>
    match m with
    | some mv => if mv < c then (1 : ℤ) else -1
    | none => -1) closes (rollingMean window closes)

/-- `MeanReversionStrategy.generate_signals`: buy (+1) when
`close < mean * (1 - threshold)`, sell (-1) when `close > mean * (1 + threshold)`,
else 0; a missing rolling mean makes both comparisons `False`, so the
signal is `0`. The code computes `buy.astype(int) - sell.astype(int)`. -/
def mean_reversion_generate_signals (window : Nat) (threshold : ℚ)
    (closes : List ℚ) : List ℤ :=
  List.zipWith (fun c m =>
    match m with
    | some mv =>
        (if c < mv * (1 - threshold) then (1 : ℤ) else 0)
          - (if mv * (1 + threshold) < c then (1 : ℤ) else 0)
    | none => 0) closes (rollingMean window closes)

/-- The z-score thresholding stage of
`StatisticalArbitrageStrategy.generate_signals`: starting from an all-zero
series, set `-1` where `zscore > entry_zscore`, then `+1` where
`zscore < -entry_zscore` (the later assignment wins where both hold), then
force `0` on the exit band `-exit_zscore < z < exit_zscore`. -/
def stat_arb_threshold_signals (entryZ exitZ : ℚ) (zscore : List ℚ) : List ℤ :=
  zscore.map (fun z =>
    if -exitZ < z ∧ z < exitZ then 0
    else if z < -entryZ then 1
    else if entryZ < z then -1
    else 0)

/-- The sequential maximum-holding-period pass of
`StatisticalArbitrageStrategy.generate_signals`.  `prev` is the previous
bar's value of the ORIGINAL (pre-pass) signal series — the code computes
`entry_points = signals.shift(1).fillna(0) != signals` before the loop, so
entry detection always compares original values.  `c = some k` means the
most recent entry point was recorded and the previous bar was `k` bars
after it (`c = none`: no entry point seen yet, `last_entry is None`).
A bar `i` with `i - last_entry >= max_position_hold` is forced to `0`. -/
def enforce_max_hold_from (H : Nat) : ℤ → Option Nat → List ℤ → List ℤ
  | _, _, [] => []
  | prev, c, s :: rest =>
      if s ≠ prev then s :: enforce_max_hold_from H s (some 0) rest
      else
        match c with
        | none => s :: enforce_max_hold_from H s none rest
        | some k =>
            (if H ≤ k + 1 then 0 else s) ::
              enforce_max_hold_from H s (some (k + 1)) rest

/-- The maximum-holding-period pass on a whole signal series:
`signals.shift(1).fillna(0)` makes the bar before the first compare
against `0`, and `last_entry` starts as `None`. -/
def enforce_max_hold (H : Nat) (signals : List ℤ) : List ℤ :=
  enforce_max_hold_from H 0 none signals

/-- Configuration of `StatisticalArbitrageStrategy.__init__`. -/
structure StatArbParams where
  lookback_period : Nat
  entry_zscore : ℚ
  exit_zscore : ℚ
  max_position_hold : Nat
  deriving Repr, DecidableEq

/-- Control-flow skeleton of `StatisticalArbitrageStrategy.generate_signals`.
`n` is the number of rows of the input table.  The statistical stages that
run on floating-point regressions are abstracted as oracles: `hasBenchmark`
(the `benchmark_close` column exists), `coint` (the ADF cointegration test
passed), `halfLifeOK` (the fitted half-life is finite and at least
`min_half_life`), and `zscore` (the rolling z-score of the spread, one value
per row).  Each failed gate returns `pd.Series(0, index=data.index)`; the
final stages are the z-score thresholding and the sequential
maximum-holding-period pass. -/
def stat_arb_generate_signals (p : StatArbParams) (n : Nat)
    (hasBenchmark coint halfLifeOK : Bool) (zscore : List ℚ) : List ℤ :=
  if n < p.lookback_period then List.replicate n 0
  else if ¬hasBenchmark then List.replicate n 0
  else if ¬coint then List.replicate n 0
  else if ¬halfLifeOK then List.replicate n 0
  else
    enforce_max_hold p.max_position_hold
      (stat_arb_threshold_signals p.entry_zscore p.exit_zscore zscore)

/-! ## Backtesting engine -/

/-- pandas `Series.shift(1)`: entry `0` becomes missing, entry `t` becomes
the old entry `t - 1`; the length is unchanged. -/
def shift1 (xs : List ℚ) : List (Option ℚ) :=
  match xs with
  | [] => []
  | _ => none :: xs.dropLast.map some

/-- pandas `Series.pct_change()` on the close column: entry `0` is missing,
entry `t` is `close[t] / close[t-1] - 1`. -/
def pct_change (xs : List ℚ) : List (Option ℚ) :=
  match xs with
  | [] => []
  | _ =>
      none ::
        List.zipWith (fun prev cur => some (cur / prev - 1)) xs.dropLast xs.tail

/-- Multiplication of two possibly-missing values; a missing operand makes
the product missing (pandas NaN propagation). -/
def omul (a b : Option ℚ) : Option ℚ :=
  match a, b with
  | some x, some y => some (x * y)
  | _, _ => none

/-- pandas `Series.cumprod()` with its default `skipna=True`: a missing
entry stays missing and does not enter the running product; `acc` is the
product of the non-missing entries seen so far. -/
def cumprod_skipna (acc : ℚ) : List (Option ℚ) → List (Option ℚ)
  | [] => []
  | none :: rest => none :: cumprod_skipna acc rest
  | some x :: rest => some (acc * x) :: cumprod_skipna (acc * x) rest

/-- The columns `BacktestingEngine._backtest_strategy` adds to the copied
price table. -/
structure ResultTable where
  signal : List ℤ
  returns : List (Option ℚ)
  strategy_returns : List (Option ℚ)
  cumulative_strategy : List (Option ℚ)
  cumulative_market : List (Option ℚ)

/-- `BacktestingEngine._backtest_strategy`, given the signal series the
strategy produced for this table:
`Returns = close.pct_change()`,
`Strategy_Returns = Signal.shift(1) * Returns`,
`Cumulative_Strategy = (1 + Strategy_Returns).cumprod() * initial_capital`,
`Cumulative_Market = (1 + Returns).cumprod() * initial_capital`. -/
def backtest_strategy (initial_capital : ℚ) (signals : List ℤ)
    (closes : List ℚ) : ResultTable :=
  let rets := pct_change closes
  let sigQ : List ℚ := signals.map (fun s : ℤ => (s : ℚ))
  let strat := List.zipWith omul (shift1 sigQ) rets
  { signal := signals
    returns := rets
    strategy_returns := strat
    cumulative_strategy :=
      (cumprod_skipna 1 (strat.map (Option.map (fun r => 1 + r)))).map
        (Option.map (fun v => v * initial_capital))
    cumulative_market :=
      (cumprod_skipna 1 (rets.map (Option.map (fun r => 1 + r)))).map
        (Option.map (fun v => v * initial_capital)) }

/-- First non-missing entry of a column, with its index. -/
def first_valid : Nat → List (Option ℚ) → Option (Nat × ℚ)
  | _, [] => none
  | i, none :: rest => first_valid (i + 1) rest
  | i, some x :: _ => some (i, x)

/-- `BacktestingEngine.run_all` result collection: Python dict assignment
`results[str(type(strat).__name__)] = future.result()`, one assignment per
completed future, in completion order; a later assignment to the same key
overwrites the earlier one. -/
def dict_insert (m : String → Option ℚ) (k : String) (v : ℚ) :
    String → Option ℚ :=
  fun x => if x = k then some v else m x

/-- Fold the per-future dict assignments of `run_all` over the completed
tasks in their completion order, starting from the empty dict. -/
def run_all_collect (completed : List (String × ℚ)) : String → Option ℚ :=
  completed.foldl (fun m p => dict_insert m p.1 p.2) (fun _ => none)

/-- `BacktestingEngine.run_all` including exception behaviour: the loop
calls `future.result()` on each completed future in completion order, and
`future.result()` re-raises the exception of a failed task, which
propagates out of `run_all`.  `completed` carries each task's class name
together with its outcome (`Except.error`: the task raised). -/
def run_all (completed : List (String × Except String ℚ)) :
    Except String (String → Option ℚ) :=
  go completed (fun _ => none)
where
  go : List (String × Except String ℚ) → (String → Option ℚ) →
      Except String (String → Option ℚ)
  | [], m => .ok m
  | (_, .error e) :: _, _ => .error e
  | (k, .ok v) :: rest, m => go rest (dict_insert m k v)

/-! ## Risk engine -/

/-- pandas `Series.cummax()` seeded with the running maximum `m`. -/
def cummax_from (m : ℚ) : List ℚ → List ℚ
  | [] => []
  | x :: rest => max m x :: cummax_from (max m x) rest

/-- pandas `Series.cummax()`. -/
def cummax : List ℚ → List ℚ
  | [] => []
  | x :: rest => x :: cummax_from x rest

/-- The drawdown series of `RiskEngine.calculate_drawdown_metrics`:
`running_max = equity_curve.cummax()`;
`drawdowns = (equity_curve - running_max) / running_max`. -/
def drawdown_series (equity : List ℚ) : List ℚ :=
  List.zipWith (fun e m => (e - m) / m) equity (cummax equity)

/-- `max_drawdown = drawdowns.min()` (the function returns `0.0` for fewer
than 2 observations before computing the series). -/
def max_drawdown (equity : List ℚ) : ℚ :=
  if equity.length < 2 then 0
  else ((drawdown_series equity).min?).getD 0

/-- `np.percentile(xs, q*100)` with numpy's default linear interpolation:
sort ascending, take `rank = q * (n - 1)`, and interpolate between the
values at `⌊rank⌋` and `⌊rank⌋ + 1`. -/
def percentile_linear (xs : List ℚ) (q : ℚ) : ℚ :=
  let s := List.insertionSort (· ≤ ·) xs
  let rank : ℚ := q * ((xs.length : ℚ) - 1)
  let lo : Nat := ⌊rank⌋.toNat
  let a := s.getD lo 0
  let b := s.getD (lo + 1) a
  a + (rank - (lo : ℚ)) * (b - a)

/-- The historical-VaR and conditional-VaR fields of
`RiskEngine.calculate_tail_risk_metrics` (the parametric and EVT fields are
computed from scipy distribution fits on floats and are not referenced
here).  `returns` is `self.data['strategy_returns'].dropna()`.  With fewer
than 2 observations both metrics are `0.0`; otherwise
`hist_var = np.percentile(returns, (1 - confidence_level) * 100)` and
`cvar = returns[returns <= hist_var].mean()`, falling back to `hist_var`
when no returns qualify. -/
structure TailRiskMetrics where
  historical_var : ℚ
  conditional_var : ℚ

/-- See `TailRiskMetrics`. -/
def calculate_tail_risk_metrics (returns : List ℚ) (confidence_level : ℚ) :
    TailRiskMetrics :=
  if returns.length < 2 then { historical_var := 0, conditional_var := 0 }
  else
    let hist_var := percentile_linear returns (1 - confidence_level)
    let cvar_returns := returns.filter (fun r => r ≤ hist_var)
    let cvar :=
      if cvar_returns.length ≠ 0 then
        cvar_returns.sum / (cvar_returns.length : ℚ)
      else hist_var
    { historical_var := hist_var, conditional_var := cvar }

/-! ## Helper lemmas -/

theorem length_rollingMean (w : Nat) (xs : List ℚ) :
    (rollingMean w xs).length = xs.length := by
  simp [rollingMean]

theorem rollingMean_of_short {w : Nat} {xs : List ℚ} (hw : xs.length < w) :
    rollingMean w xs = List.replicate xs.length none := by
  rw [List.eq_replicate_iff]
  refine ⟨length_rollingMean w xs, ?_⟩
  intro b hb
  rcases List.mem_map.mp hb with ⟨t, ht, rfl⟩
  have h1 := List.mem_range.mp ht
  have h2 : t + 1 < w := by omega
  simp [h2]

theorem length_momentum (w : Nat) (closes : List ℚ) :
    (momentum_generate_signals w closes).length = closes.length := by
  simp [momentum_generate_signals, length_rollingMean]

theorem getElem_rollingMean (w : Nat) (xs : List ℚ) (t : Nat)
    (ht : t < xs.length) :
    (rollingMean w xs).getD t none =
      if t + 1 < w then none
      else some (((xs.drop (t + 1 - w)).take w).sum / (w : ℚ)) := by
  rw [List.getD_eq_getElem _ _ (by rw [length_rollingMean]; exact ht)]
  simp [rollingMean]

theorem momentum_getElem (w : Nat) (closes : List ℚ) (t : Nat)
    (ht : t < closes.length) :
    (momentum_generate_signals w closes).getD t 0 =
      if t + 1 < w then -1
      else if ((closes.drop (t + 1 - w)).take w).sum / (w : ℚ) <
          closes.getD t 0 then 1 else -1 := by
  have hlen : t < (momentum_generate_signals w closes).length := by
    rw [length_momentum]; exact ht
  rw [List.getD_eq_getElem _ _ hlen]
  unfold momentum_generate_signals
  rw [List.getElem_zipWith]
  have hm := getElem_rollingMean w closes t ht
  rw [List.getD_eq_getElem _ _ (by rw [length_rollingMean]; exact ht)] at hm
  rw [hm, List.getD_eq_getElem _ _ ht]
  by_cases h : t + 1 < w <;> simp [h]

theorem zipWith_none_const {f : ℚ → Option ℚ → ℤ} {k : ℤ}
    (hf : ∀ c, f c none = k) :
    ∀ (xs : List ℚ) (n : Nat), xs.length = n →
      List.zipWith f xs (List.replicate n none) = List.replicate n k := by
  intro xs
  induction xs with
  | nil => intro n hn; subst hn; simp
  | cons x rest ih =>
      intro n hn
      cases n with
      | zero => simp at hn
      | succ m =>
          simp only [List.replicate_succ, List.zipWith_cons_cons, hf]
          rw [ih m (by simpa using hn)]

/-! ## Claim C1 -/

/-- C1, counterexample: a 3-row price table is shorter than Momentum's
window of 5, yet `MomentumStrategy.generate_signals` returns all `-1`
(the NaN rolling-mean comparison is `False`, and `replace(0, -1)` turns
that into `-1`), not the all-zero series the claim requires. -/
theorem C1_counterexample :
    momentum_generate_signals 5 [1, 1, 1] = [-1, -1, -1] ∧
      momentum_generate_signals 5 [1, 1, 1] ≠ List.replicate 3 0 := by
  constructor <;> decide

/-- C1, amended: on a price table with fewer rows than the lookback
window, every variant returns without raising a signal series of the
input's length; MeanReversion and StatisticalArbitrage return all zeros,
but Momentum returns all `-1`. -/
theorem C1_short_input_behaviour (closes : List ℚ) (w : Nat) (θ : ℚ)
    (p : StatArbParams) (hb hc hh : Bool) (z : List ℚ)
    (hw : closes.length < w) (hp : closes.length < p.lookback_period) :
    momentum_generate_signals w closes =
        List.replicate closes.length (-1) ∧
      mean_reversion_generate_signals w θ closes =
        List.replicate closes.length 0 ∧
      stat_arb_generate_signals p closes.length hb hc hh z =
        List.replicate closes.length 0 := by
  refine ⟨?_, ?_, ?_⟩
  · unfold momentum_generate_signals
    rw [rollingMean_of_short hw]
    exact zipWith_none_const (fun c => rfl) closes closes.length rfl
  · unfold mean_reversion_generate_signals
    rw [rollingMean_of_short hw]
    exact zipWith_none_const (fun c => rfl) closes closes.length rfl
  · unfold stat_arb_generate_signals
    rw [if_pos hp]

/-- C1 witness. -/
theorem C1_short_input_behaviour_witness :
    ([(1 : ℚ), 1, 1].length < 5 ∧
        [(1 : ℚ), 1, 1].length <
          (StatArbParams.mk 60 2 (1/2) 20).lookback_period) ∧
      momentum_generate_signals 5 [1, 1, 1] = List.replicate 3 (-1) ∧
        mean_reversion_generate_signals 5 (1/20) [1, 1, 1] =
          List.replicate 3 0 ∧
        stat_arb_generate_signals (StatArbParams.mk 60 2 (1/2) 20)
            [(1 : ℚ), 1, 1].length true true true [] =
          List.replicate 3 0 :=
  ⟨⟨by decide, by decide⟩,
    C1_short_input_behaviour [1, 1, 1] 5 (1/20)
      (StatArbParams.mk 60 2 (1/2) 20) true true true []
      (by decide) (by decide)⟩

/-! ## Claim C6 -/

/-- C6: with at least `window` rows, the Momentum signal is `+1` at a date
exactly when close is strictly above the `window`-bar rolling mean there,
and `-1` otherwise; every bar before the window fills is `-1`.  In
particular, on a constant close of `100` over 50 bars with `window = 5`,
the signal is `-1` at every index from 5 onward. -/
theorem C6_momentum_signal_rule (closes : List ℚ) (w : Nat) (hw : 1 ≤ w)
    (hlen : w ≤ closes.length) :
    (∀ t, t < closes.length →
      (t + 1 < w → (momentum_generate_signals w closes).getD t 0 = -1) ∧
      (∀ m, (rollingMean w closes).getD t none = some m →
        ((momentum_generate_signals w closes).getD t 0 = 1 ↔
          m < closes.getD t 0) ∧
        ((momentum_generate_signals w closes).getD t 0 = -1 ↔
          ¬ m < closes.getD t 0))) ∧
    (∀ t, 5 ≤ t → t < 50 →
      (momentum_generate_signals 5 (List.replicate 50 (100 : ℚ))).getD t 0 =
        -1) := by
  constructor
  · intro t ht
    constructor
    · intro hlt
      rw [momentum_getElem w closes t ht, if_pos hlt]
    · intro m hm
      rw [getElem_rollingMean w closes t ht] at hm
      by_cases hlt : t + 1 < w
      · rw [if_pos hlt] at hm; exact absurd hm (by simp)
      · rw [if_neg hlt] at hm
        have hmval : m = ((closes.drop (t + 1 - w)).take w).sum / (w : ℚ) :=
          (Option.some_injective ℚ hm.symm)
        rw [momentum_getElem w closes t ht, if_neg hlt, hmval]
        by_cases hc :
            ((closes.drop (t + 1 - w)).take w).sum / (w : ℚ) <
              closes.getD t 0
        · rw [if_pos hc]
          exact ⟨iff_of_true rfl hc, iff_of_false (by decide)
            (not_not_intro hc)⟩
        · rw [if_neg hc]
          exact ⟨iff_of_false (by decide) hc, iff_of_true rfl hc⟩
  · intro t ht5 ht50
    have hrep : t < (List.replicate 50 (100 : ℚ)).length := by
      simpa using ht50
    rw [momentum_getElem 5 (List.replicate 50 (100 : ℚ)) t hrep]
    have hge : ¬ t + 1 < 5 := by omega
    rw [if_neg hge]
    have hdrop : (List.replicate 50 (100 : ℚ)).drop (t + 1 - 5) =
        List.replicate (50 - (t + 1 - 5)) (100 : ℚ) := by
      exact List.drop_replicate _ _ _
    have htake :
        ((List.replicate 50 (100 : ℚ)).drop (t + 1 - 5)).take 5 =
          List.replicate 5 (100 : ℚ) := by
      rw [hdrop, List.take_replicate]
      congr 1
      omega
    have hclose : (List.replicate 50 (100 : ℚ)).getD t 0 = 100 := by
      rw [List.getD_eq_getElem _ _ hrep]
      exact List.getElem_replicate _ _
    rw [htake, hclose]
    rw [if_neg ?hne]
    case hne =>
      rw [List.sum_replicate]
      norm_num

/-- C6 witness. -/
theorem C6_momentum_signal_rule_witness :
    1 ≤ 5 ∧ 5 ≤ (List.replicate 50 (100 : ℚ)).length ∧
      (momentum_generate_signals 5 (List.replicate 50 (100 : ℚ))).getD 7 0 =
        -1 :=
  ⟨by decide, by simp,
    (C6_momentum_signal_rule (List.replicate 50 (100 : ℚ)) 5 (by decide)
        (by simp)).2 7 (by decide) (by decide)⟩

/-! ## Claim C7 -/

/-- Inside a run of output values equal to `v ≠ 0` of the holding-period
pass, with the previous original signal also `v` and the bars-since-entry
counter at `k`, no entry point can fire, so the counter keeps growing and
the run can extend at most `H - (k + 1)` further bars before being
forced flat. -/
theorem enforce_front_run (H : Nat) :
    ∀ (l : List ℤ) (k m : Nat) (v : ℤ), v ≠ 0 →
      (∀ j, j < m →
        (enforce_max_hold_from H v (some k) l).get? j = some v) →
      m ≤ H - (k + 1) := by
  intro l
  induction l with
  | nil =>
      intro k m v hv h
      cases m with
      | zero => exact Nat.zero_le _
      | succ m' =>
          have h0 := h 0 (Nat.succ_pos m')
          simp [enforce_max_hold_from] at h0
  | cons s rest ih =>
      intro k m v hv h
      cases m with
      | zero => exact Nat.zero_le _
      | succ m' =>
          by_cases hsv : s ≠ v
          · have hunfold : enforce_max_hold_from H v (some k) (s :: rest) =
                s :: enforce_max_hold_from H s (some 0) rest := by
              simp [enforce_max_hold_from, hsv]
            have h0 := h 0 (Nat.succ_pos m')
            rw [hunfold] at h0
            simp at h0
            exact absurd h0 hsv
          · push_neg at hsv
            subst hsv
            have hunfold : enforce_max_hold_from H s (some k) (s :: rest) =
                (if H ≤ k + 1 then 0 else s) ::
                  enforce_max_hold_from H s (some (k + 1)) rest := by
              simp [enforce_max_hold_from]
            by_cases hk : H ≤ k + 1
            · have h0 := h 0 (Nat.succ_pos m')
              rw [hunfold, if_pos hk] at h0
              simp at h0
              exact absurd h0.symm hv
            · have htail : ∀ j, j < m' →
                  (enforce_max_hold_from H s (some (k + 1)) rest).get? j =
                    some s := by
                intro j hj
                have hh2 := h (j + 1) (by omega)
                rw [hunfold, if_neg hk] at hh2
                simpa using hh2
              have := ih (k + 1) m' s hv htail
              omega

/-- The holding-period pass never lets `H + 1` consecutive output bars
carry the same non-zero value, as long as the previous original signal and
the counter satisfy the scan invariant (`last_entry is None` only before
any non-zero original bar, when the previous original value is `0`). -/
theorem enforce_no_long_run (H : Nat) (hH : 1 ≤ H) :
    ∀ (sig : List ℤ) (prev : ℤ) (c : Option Nat), (c = none → prev = 0) →
      ∀ (i : Nat) (v : ℤ), v ≠ 0 →
      ¬ (∀ j, j ≤ H →
          (enforce_max_hold_from H prev c sig).get? (i + j) = some v) := by
  intro sig
  induction sig with
  | nil =>
      intro prev c hinv i v hv h
      have h0 := h 0 (Nat.zero_le H)
      simp [enforce_max_hold_from] at h0
  | cons s rest ih =>
      intro prev c hinv i v hv h
      by_cases hsv : s ≠ prev
      · have hunfold : enforce_max_hold_from H prev c (s :: rest) =
            s :: enforce_max_hold_from H s (some 0) rest := by
          simp [enforce_max_hold_from, hsv]
        cases i with
        | zero =>
            have h0 := h 0 (Nat.zero_le H)
            rw [hunfold] at h0
            simp at h0
            subst h0
            have htail : ∀ j, j < H →
                (enforce_max_hold_from H s (some 0) rest).get? j = some s := by
              intro j hj
              have hh2 := h (j + 1) (by omega)
              rw [hunfold] at hh2
              simpa using hh2
            have := enforce_front_run H rest 0 H s hv htail
            omega
        | succ i' =>
            refine ih s (some 0) (by intro hc; cases hc) i' v hv ?_
            intro j hj
            have hh2 := h j hj
            rw [hunfold] at hh2
            have hidx : i' + 1 + j = (i' + j) + 1 := by omega
            rw [hidx] at hh2
            simpa using hh2
      · push_neg at hsv
        subst hsv
        cases c with
        | none =>
            have hs0 : s = 0 := hinv rfl
            have hunfold : enforce_max_hold_from H s none (s :: rest) =
                s :: enforce_max_hold_from H s none rest := by
              simp [enforce_max_hold_from]
            cases i with
            | zero =>
                have h0 := h 0 (Nat.zero_le H)
                rw [hunfold] at h0
                simp at h0
                rw [hs0] at h0
                exact hv h0.symm
            | succ i' =>
                refine ih s none (fun _ => hs0) i' v hv ?_
                intro j hj
                have hh2 := h j hj
                rw [hunfold] at hh2
                have hidx : i' + 1 + j = (i' + j) + 1 := by omega
                rw [hidx] at hh2
                simpa using hh2
        | some k =>
            have hunfold : enforce_max_hold_from H s (some k)
                  (s :: rest) =
                (if H ≤ k + 1 then 0 else s) ::
                  enforce_max_hold_from H s (some (k + 1)) rest := by
              simp [enforce_max_hold_from]
            cases i with
            | zero =>
                by_cases hk : H ≤ k + 1
                · have h0 := h 0 (Nat.zero_le H)
                  rw [hunfold, if_pos hk] at h0
                  simp at h0
                  exact hv h0.symm
                · have h0 := h 0 (Nat.zero_le H)
                  rw [hunfold, if_neg hk] at h0
                  simp at h0
                  subst h0
                  have htail : ∀ j, j < H →
                      (enforce_max_hold_from H s (some (k + 1))
                          rest).get? j = some s := by
                    intro j hj
                    have hh2 := h (j + 1) (by omega)
                    rw [hunfold, if_neg hk] at hh2
                    simpa using hh2
                  have := enforce_front_run H rest (k + 1) H s hv htail
                  omega
            | succ i' =>
                refine ih s (some (k + 1)) (by intro hc; cases hc) i' v
                  hv ?_
                intro j hj
                have hh2 := h j hj
                rw [hunfold] at hh2
                have hidx : i' + 1 + j = (i' + j) + 1 := by omega
                rw [hidx] at hh2
                simpa using hh2

/-- C7: in the signal series returned by
`StatisticalArbitrageStrategy.generate_signals`, no `max_position_hold + 1`
consecutive bars all carry the same non-zero value: once
`max_position_hold` bars have elapsed since the most recent entry point,
the signal is forced to `0` until the next change resets the counter.
Stated for every abstract outcome of the statistical stages (benchmark
presence, cointegration verdict, half-life verdict, z-score series), so it
covers every possible return value of the method. -/
theorem C7_position_hold_invariant (p : StatArbParams) (n : Nat)
    (hb hc hh : Bool) (z : List ℚ) (hH : 1 ≤ p.max_position_hold)
    (i : Nat) (v : ℤ) (hv : v ≠ 0) :
    ¬ (∀ j, j ≤ p.max_position_hold →
        (stat_arb_generate_signals p n hb hc hh z).get? (i + j) =
          some v) := by
  unfold stat_arb_generate_signals
  have hzero : ∀ (m : Nat),
      ¬ (∀ j, j ≤ p.max_position_hold →
          (List.replicate m (0 : ℤ)).get? (i + j) = some v) := by
    intro m hrun
    exact hv (List.eq_of_mem_replicate (List.get?_mem (hrun 0 (Nat.zero_le _))))
  by_cases h1 : n < p.lookback_period
  · rw [if_pos h1]; exact hzero n
  · rw [if_neg h1]
    by_cases h2 : ¬ hb
    · rw [if_pos h2]; exact hzero n
    · rw [if_neg h2]
      by_cases h3 : ¬ hc
      · rw [if_pos h3]; exact hzero n
      · rw [if_neg h3]
        by_cases h4 : ¬ hh
        · rw [if_pos h4]; exact hzero n
        · rw [if_neg h4]
          exact enforce_no_long_run p.max_position_hold hH _ 0 none
            (fun _ => rfl) i v hv

/-- C7 witness: `max_position_hold = 2`, passing gates, and a z-score
series that stays above the entry threshold for five bars. -/
theorem C7_position_hold_invariant_witness :
    1 ≤ (StatArbParams.mk 3 2 (1/2) 2).max_position_hold ∧
      ((-1 : ℤ) ≠ 0) ∧
      ¬ (∀ j, j ≤ (StatArbParams.mk 3 2 (1/2) 2).max_position_hold →
          (stat_arb_generate_signals (StatArbParams.mk 3 2 (1/2) 2) 5
              true true true [3, 3, 3, 3, 3]).get? (0 + j) = some (-1)) :=
  ⟨by decide, by decide,
    C7_position_hold_invariant (StatArbParams.mk 3 2 (1/2) 2) 5
      true true true [3, 3, 3, 3, 3] (by decide) 0 (-1) (by decide)⟩

/-! ## Claims C4 and C5 -/

theorem length_shift1 (xs : List ℚ) : (shift1 xs).length = xs.length := by
  cases xs with
  | nil => rfl
  | cons x rest => simp [shift1]

theorem length_pct_change (xs : List ℚ) :
    (pct_change xs).length = xs.length := by
  cases xs with
  | nil => rfl
  | cons x rest => simp [pct_change]

theorem getElem_shift1 (xs : List ℚ) (t : Nat) (h1 : 1 ≤ t)
    (h2 : t < xs.length) :
    (shift1 xs).getD t none = some (xs.getD (t - 1) 0) := by
  cases xs with
  | nil => simp at h2
  | cons x rest =>
      obtain ⟨t', rfl⟩ : ∃ t', t = t' + 1 := ⟨t - 1, by omega⟩
      have hdl : t' < (x :: rest).dropLast.length := by
        simp only [List.length_dropLast, List.length_cons]
        simp only [List.length_cons] at h2
        omega
      show (none :: (x :: rest).dropLast.map some).getD (t' + 1) none = _
      rw [List.getD_cons_succ]
      rw [List.getD_eq_getElem _ _ (by simpa using hdl)]
      rw [List.getElem_map]
      rw [List.getElem_dropLast]
      rw [List.getD_eq_getElem _ _ (by omega)]
      simp

theorem getD_zipWith_omul (as bs : List (Option ℚ)) (t : Nat)
    (ha : t < as.length) (hb : t < bs.length) :
    (List.zipWith omul as bs).getD t none =
      omul (as.getD t none) (bs.getD t none) := by
  rw [List.getD_eq_getElem _ _ (by rw [List.length_zipWith]; omega)]
  rw [List.getElem_zipWith]
  rw [List.getD_eq_getElem _ _ ha, List.getD_eq_getElem _ _ hb]

theorem length_strategy_returns (cap : ℚ) (signals : List ℤ)
    (closes : List ℚ) (hlen : signals.length = closes.length) :
    (backtest_strategy cap signals closes).strategy_returns.length =
      closes.length := by
  show (List.zipWith omul (shift1 (signals.map (fun s : ℤ => (s : ℚ))))
      (pct_change closes)).length = closes.length
  rw [List.length_zipWith, length_shift1, length_pct_change,
    List.length_map, hlen, Nat.min_self]

/-- C4: in the result table of a backtest, the strategy-return column at
every valid index `t ≥ 1` is the one-bar-lagged signal times the period
return at `t` (missing components propagate as missing), and the
period-return column is `close.pct_change()`. -/
theorem C4_signal_shift_no_lookahead (cap : ℚ) (signals : List ℤ)
    (closes : List ℚ) (hlen : signals.length = closes.length) (t : Nat)
    (h1 : 1 ≤ t) (h2 : t < closes.length) :
    (backtest_strategy cap signals closes).strategy_returns.getD t none =
      omul (some ((signals.getD (t - 1) 0 : ℤ) : ℚ))
        ((backtest_strategy cap signals closes).returns.getD t none) ∧
    (backtest_strategy cap signals closes).returns = pct_change closes := by
  refine ⟨?_, rfl⟩
  show (List.zipWith omul (shift1 (signals.map (fun s : ℤ => (s : ℚ))))
      (pct_change closes)).getD t none = _
  have hsl : (signals.map (fun s : ℤ => (s : ℚ))).length = closes.length := by
    rw [List.length_map]; exact hlen
  rw [getD_zipWith_omul _ _ t (by rw [length_shift1, hsl]; exact h2)
    (by rw [length_pct_change]; exact h2)]
  rw [getElem_shift1 _ t h1 (by rw [hsl]; exact h2)]
  have hcast : (signals.map (fun s : ℤ => (s : ℚ))).getD (t - 1) 0 =
      ((signals.getD (t - 1) 0 : ℤ) : ℚ) := by
    rw [List.getD_eq_getElem _ _ (by rw [List.length_map, hlen]; omega),
      List.getElem_map, List.getD_eq_getElem _ _ (by rw [hlen]; omega)]
  rw [hcast]
  rfl

/-- C4 witness. -/
theorem C4_signal_shift_no_lookahead_witness :
    ([(-1 : ℤ), 1, 1].length = [(1 : ℚ), 2, 3].length ∧ 1 ≤ 2 ∧
        2 < [(1 : ℚ), 2, 3].length) ∧
      (backtest_strategy 100000 [-1, 1, 1] [1, 2, 3]).strategy_returns.getD
          2 none =
        omul (some (([(-1 : ℤ), 1, 1].getD 1 0 : ℤ) : ℚ))
          ((backtest_strategy 100000 [-1, 1, 1] [1, 2, 3]).returns.getD 2
            none) :=
  ⟨⟨by decide, by decide, by decide⟩,
    (C4_signal_shift_no_lookahead 100000 [-1, 1, 1] [1, 2, 3] (by decide) 2
      (by decide) (by decide)).1⟩

/-- C5, counterexample: Momentum(2) on closes `[1, 2, 3]` produces the
signal series `[-1, 1, 1]`; the cumulative strategy-equity column of the
backtest is then `[NaN, 0, 0]` — its first valid entry is `0`, not the
initial capital of `100000` (the short position at bar 0 loses the full
+100% move of bar 1). -/
theorem C5_counterexample :
    momentum_generate_signals 2 [1, 2, 3] = [-1, 1, 1] ∧
      first_valid 0 (backtest_strategy 100000 [-1, 1, 1]
          [1, 2, 3]).cumulative_strategy = some (1, 0) ∧
      (0 : ℚ) ≠ 100000 := by
  refine ⟨?_, ?_, by norm_num⟩
  · norm_num [momentum_generate_signals, rollingMean, List.range_succ]
  · norm_num [backtest_strategy, pct_change, shift1, omul, cumprod_skipna,
      first_valid]

/-- Entry `t` of a skipna cumulative product, when every earlier entry is
missing, is the accumulator times the value at `t`. -/
theorem cumprod_skipna_first_some (x : ℚ) :
    ∀ (l : List (Option ℚ)) (acc : ℚ) (t : Nat),
      (∀ j, j < t → l.getD j none = none) → l.getD t none = some x →
      (cumprod_skipna acc l).getD t none = some (acc * x) := by
  intro l
  induction l with
  | nil =>
      intro acc t hfirst ht
      simp at ht
  | cons a rest ih =>
      intro acc t hfirst ht
      cases t with
      | zero =>
          rw [List.getD_cons_zero] at ht
          subst ht
          simp [cumprod_skipna]
      | succ t' =>
          have ha : a = none := by
            have := hfirst 0 (Nat.succ_pos t')
            rwa [List.getD_cons_zero] at this
          subst ha
          show (none :: cumprod_skipna acc rest).getD (t' + 1) none = _
          rw [List.getD_cons_succ]
          refine ih acc t' ?_ ?_
          · intro j hj
            have := hfirst (j + 1) (by omega)
            rwa [List.getD_cons_succ] at this
          · rwa [List.getD_cons_succ] at ht

theorem length_cumprod_skipna :
    ∀ (l : List (Option ℚ)) (acc : ℚ),
      (cumprod_skipna acc l).length = l.length := by
  intro l
  induction l with
  | nil => intro acc; rfl
  | cons a rest ih =>
      intro acc
      cases a <;> simp [cumprod_skipna, ih]

theorem getD_map_option (f : ℚ → ℚ) (l : List (Option ℚ)) (t : Nat)
    (ht : t < l.length) :
    (l.map (Option.map f)).getD t none = Option.map f (l.getD t none) := by
  rw [List.getD_eq_getElem _ _ (by simpa using ht), List.getElem_map,
    List.getD_eq_getElem _ _ ht]

/-- C5, amended: the cumulative strategy-equity column at the first valid
index `t` of the strategy-return column equals
`(1 + strategy_return[t]) * initial_capital`, not `initial_capital`
itself (the skipna cumulative product starts compounding with the first
non-missing return, which is generally non-zero). -/
theorem C5_first_valid_equity (cap : ℚ) (signals : List ℤ)
    (closes : List ℚ) (t : Nat) (r : ℚ)
    (htlen : t <
      (backtest_strategy cap signals closes).strategy_returns.length)
    (ht : (backtest_strategy cap signals closes).strategy_returns.getD t
        none = some r)
    (hfirst : ∀ j, j < t →
      (backtest_strategy cap signals closes).strategy_returns.getD j none =
        none) :
    (backtest_strategy cap signals closes).cumulative_strategy.getD t none =
      some ((1 + r) * cap) := by
  set strat :=
    (backtest_strategy cap signals closes).strategy_returns with hstrat
  show ((cumprod_skipna 1 (strat.map (Option.map (fun r => 1 + r)))).map
      (Option.map (fun v => v * cap))).getD t none = _
  have hlen1 : (strat.map (Option.map (fun r => 1 + r))).length =
      strat.length := by simp
  have hmid : (cumprod_skipna 1
      (strat.map (Option.map (fun r => 1 + r)))).getD t none =
      some (1 * (1 + r)) := by
    refine cumprod_skipna_first_some (1 + r) _ 1 t ?_ ?_
    · intro j hj
      rw [getD_map_option _ _ j (by omega), hfirst j hj]
      rfl
    · rw [getD_map_option _ _ t htlen, ht]
      rfl
  have hcl : (cumprod_skipna
      (1 : ℚ) (strat.map (Option.map (fun r => 1 + r)))).length =
      strat.length := by
    rw [length_cumprod_skipna, hlen1]
  rw [getD_map_option _ _ t (by rw [hcl]; exact htlen), hmid]
  show some (1 * (1 + r) * cap) = _
  ring_nf

/-- C5 witness. -/
theorem C5_first_valid_equity_witness :
    (backtest_strategy 100000 [-1, 1, 1]
        [1, 2, 3]).strategy_returns.getD 1 none = some (-1) ∧
      (backtest_strategy 100000 [-1, 1, 1]
          [1, 2, 3]).cumulative_strategy.getD 1 none =
        some ((1 + (-1)) * 100000) :=
  ⟨by norm_num [backtest_strategy, pct_change, shift1, omul],
    C5_first_valid_equity 100000 [-1, 1, 1] [1, 2, 3] 1 (-1)
      (by norm_num [backtest_strategy, pct_change, shift1, omul])
      (by norm_num [backtest_strategy, pct_change, shift1, omul])
      (by
        intro j hj
        have hj0 : j = 0 := by omega
        subst hj0
        norm_num [backtest_strategy, pct_change, shift1, omul])⟩

/-! ## Claims C2 and C3 -/

/-- C2: when one strategy's backtest computation raises,
`BacktestingEngine.run_all` does not return the sibling strategies'
results — the loop's `future.result()` re-raises the exception and the
whole call aborts, whichever completion order occurs.  Here the Momentum
task has already produced a result table (modelled by `1`), yet `run_all`
still propagates the MeanReversion task's exception instead of returning a
mapping with an isolated error entry. -/
theorem C2_failing_strategy_aborts_run_all :
    run_all [("MomentumStrategy", Except.ok (1 : ℚ)),
        ("MeanReversionStrategy", Except.error "ValueError")] =
      Except.error "ValueError" ∧
    run_all [("MeanReversionStrategy", Except.error "ValueError"),
        ("MomentumStrategy", Except.ok (1 : ℚ))] =
      Except.error "ValueError" := by
  exact ⟨rfl, rfl⟩

/-- C3, counterexample: two strategies of the same class (e.g.
`MomentumStrategy(5)` and `MomentumStrategy(20)`) share the dict key
`str(type(strat).__name__)`, so the mapping holds one entry for two input
strategies, and which result survives depends on completion order: the
two completion orders of the same two tasks give different mappings. -/
theorem C3_counterexample :
    (run_all_collect [("MomentumStrategy", 1), ("MomentumStrategy", 2)])
        "MomentumStrategy" = some 2 ∧
      (run_all_collect [("MomentumStrategy", 2), ("MomentumStrategy", 1)])
        "MomentumStrategy" = some 1 ∧
      (2 : ℚ) ≠ 1 := by
  refine ⟨rfl, rfl, by norm_num⟩

theorem run_all_collect_foldl_of_not_mem (m : String → Option ℚ)
    (l : List (String × ℚ)) (k : String) (hk : k ∉ l.map Prod.fst) :
    (l.foldl (fun m p => dict_insert m p.1 p.2) m) k = m k := by
  induction l generalizing m with
  | nil => rfl
  | cons a rest ih =>
      simp only [List.map_cons, List.mem_cons] at hk
      push_neg at hk
      rw [List.foldl_cons, ih _ (by exact hk.2)]
      simp [dict_insert, hk.1]

theorem run_all_collect_foldl_of_mem (l : List (String × ℚ)) (k : String)
    (v : ℚ) (hnd : (l.map Prod.fst).Nodup) (hmem : (k, v) ∈ l) :
    ∀ (m : String → Option ℚ),
      (l.foldl (fun m p => dict_insert m p.1 p.2) m) k = some v := by
  induction l with
  | nil => cases hmem
  | cons a rest ih =>
      intro m
      simp only [List.map_cons, List.nodup_cons] at hnd
      rcases List.mem_cons.mp hmem with heq | hrest
      · subst heq
        rw [List.foldl_cons,
          run_all_collect_foldl_of_not_mem _ rest k hnd.1]
        simp [dict_insert]
      · rw [List.foldl_cons]
        exact ih hnd.2 hrest _

theorem run_all_collect_foldl_some (l : List (String × ℚ)) (k : String)
    (v : ℚ) :
    ∀ (m : String → Option ℚ),
      (l.foldl (fun m p => dict_insert m p.1 p.2) m) k = some v →
      (k, v) ∈ l ∨ m k = some v := by
  induction l with
  | nil => intro m h; exact Or.inr h
  | cons a rest ih =>
      intro m h
      rw [List.foldl_cons] at h
      rcases ih _ h with hrest | hins
      · exact Or.inl (List.mem_cons_of_mem _ hrest)
      · by_cases hk : k = a.1
        · subst hk
          have hv : a.2 = v := by simpa [dict_insert] using hins
          subst hv
          exact Or.inl (by simp)
        · simp only [dict_insert, if_neg hk] at hins
          exact Or.inr hins

/-- C3, amended: when the strategies' class names are pairwise distinct,
the mapping returned by `run_all` contains exactly one entry per input
strategy, keyed by its class name and holding that strategy's result, and
the mapping is the same for every completion order of the tasks
(`completed` ranges over all permutations of the per-strategy results). -/
theorem C3_run_all_mapping_keyed (tasks completed : List (String × ℚ))
    (hnd : (tasks.map Prod.fst).Nodup) (hperm : completed.Perm tasks) :
    ∀ (k : String) (v : ℚ),
      run_all_collect completed k = some v ↔ (k, v) ∈ tasks := by
  intro k v
  have hndc : (completed.map Prod.fst).Nodup :=
    hnd.perm ((hperm.map Prod.fst).symm)
  constructor
  · intro h
    rcases run_all_collect_foldl_some completed k v _ h with hmem | hnone
    · exact hperm.mem_iff.mp hmem
    · cases hnone
  · intro hmem
    exact run_all_collect_foldl_of_mem completed k v hndc
      (hperm.mem_iff.mpr hmem) _

/-- C3 witness. -/
theorem C3_run_all_mapping_keyed_witness :
    ([("MomentumStrategy", (1 : ℚ)), ("MeanReversionStrategy", 2)].map
        Prod.fst).Nodup ∧
      (run_all_collect
          [("MeanReversionStrategy", (2 : ℚ)), ("MomentumStrategy", 1)])
        "MomentumStrategy" = some 1 :=
  ⟨by decide,
    (C3_run_all_mapping_keyed
        [("MomentumStrategy", (1 : ℚ)), ("MeanReversionStrategy", 2)]
        [("MeanReversionStrategy", (2 : ℚ)), ("MomentumStrategy", 1)]
        (by decide) (List.Perm.swap _ _ _) "MomentumStrategy" 1).mpr
      (List.mem_cons_self _ _)⟩

/-! ## Claim C8 -/

theorem length_cummax_from (m : ℚ) :
    ∀ (l : List ℚ), (cummax_from m l).length = l.length := by
  intro l
  induction l generalizing m with
  | nil => rfl
  | cons x rest ih => simp [cummax_from, ih]

theorem length_cummax (l : List ℚ) : (cummax l).length = l.length := by
  cases l with
  | nil => rfl
  | cons x rest => simp [cummax, length_cummax_from]

theorem length_drawdown_series (equity : List ℚ) :
    (drawdown_series equity).length = equity.length := by
  rw [drawdown_series, List.length_zipWith, length_cummax, Nat.min_self]

theorem le_cummax_from (m : ℚ) :
    ∀ (l : List ℚ) (i : Nat), i < l.length →
      l.getD i 0 ≤ (cummax_from m l).getD i 0 := by
  intro l
  induction l generalizing m with
  | nil => intro i hi; simp at hi
  | cons x rest ih =>
      intro i hi
      cases i with
      | zero =>
          show (x :: rest).getD 0 0 ≤
            (max m x :: cummax_from (max m x) rest).getD 0 0
          rw [List.getD_cons_zero, List.getD_cons_zero]
          exact le_max_right m x
      | succ i' =>
          show (x :: rest).getD (i' + 1) 0 ≤
            (max m x :: cummax_from (max m x) rest).getD (i' + 1) 0
          rw [List.getD_cons_succ, List.getD_cons_succ]
          exact ih (max m x) i' (by simpa using hi)

theorem cummax_from_pos (m : ℚ) (hm : 0 < m) :
    ∀ (l : List ℚ), (∀ x ∈ l, 0 < x) → ∀ i, i < l.length →
      0 < (cummax_from m l).getD i 0 := by
  intro l
  induction l generalizing m with
  | nil => intro _ i hi; simp at hi
  | cons x rest ih =>
      intro hpos i hi
      cases i with
      | zero =>
          have hmx : 0 < max m x := lt_max_of_lt_left hm
          simpa [cummax_from] using hmx
      | succ i' =>
          show 0 < (max m x :: cummax_from (max m x) rest).getD (i' + 1) 0
          rw [List.getD_cons_succ]
          exact ih (max m x) (lt_max_of_lt_left hm)
            (fun y hy => hpos y (List.mem_cons_of_mem _ hy)) i'
            (by simpa using hi)

theorem cummax_dominates (equity : List ℚ) (hpos : ∀ x ∈ equity, 0 < x) :
    ∀ i, i < equity.length →
      equity.getD i 0 ≤ (cummax equity).getD i 0 ∧
        0 < (cummax equity).getD i 0 := by
  intro i hi
  cases equity with
  | nil => simp at hi
  | cons x rest =>
      cases i with
      | zero =>
          refine ⟨by simp [cummax], ?_⟩
          simpa [cummax] using hpos x (List.mem_cons_self _ _)
      | succ i' =>
          show rest.getD i' 0 ≤ (cummax_from x rest).getD i' 0 ∧
            0 < (cummax_from x rest).getD i' 0
          have hi' : i' < rest.length := by simpa using hi
          exact ⟨le_cummax_from x rest i' hi',
            cummax_from_pos x (hpos x (List.mem_cons_self _ _)) rest
              (fun y hy => hpos y (List.mem_cons_of_mem _ hy)) i' hi'⟩

theorem getD_drawdown_series (equity : List ℚ) (i : Nat)
    (hi : i < equity.length) :
    (drawdown_series equity).getD i 0 =
      (equity.getD i 0 - (cummax equity).getD i 0) /
        (cummax equity).getD i 0 := by
  show (List.zipWith (fun e m => (e - m) / m) equity
      (cummax equity)).getD i 0 = _
  rw [List.getD_eq_getElem _ _
    (by rw [List.length_zipWith, length_cummax, Nat.min_self]; exact hi)]
  rw [List.getElem_zipWith]
  rw [List.getD_eq_getElem _ _ hi,
    List.getD_eq_getElem _ _ (by rw [length_cummax]; exact hi)]

/-- C8, counterexample: the equity curve `[-1, -2]` (reachable when a
shorted bar more than doubles, driving compounded equity negative) has
drawdown series `[0, 1]`: dividing by a negative running maximum makes
the second drawdown `+1 > 0`, violating "every drawdown value ≤ 0".  The
reported `max_drawdown` is still the series minimum `0`. -/
theorem C8_counterexample :
    drawdown_series [-1, -2] = [0, 1] ∧
      max_drawdown [-1, -2] = 0 ∧
      ¬ (∀ d ∈ drawdown_series [-1, -2], d ≤ 0) := by
  have h : drawdown_series [-1, -2] = [0, 1] := by
    norm_num [drawdown_series, cummax, cummax_from]
  refine ⟨h, ?_, ?_⟩
  · rw [max_drawdown, if_neg (by norm_num), h]
    norm_num [List.min?]
  · rw [h]
    intro hall
    have := hall 1 (by simp)
    norm_num at this

/-- C8, amended: for any equity curve with at least 2 observations, the
reported `max_drawdown` is the minimum of the drawdown series (it is a
member and a lower bound); and whenever the curve is positive (always the
case when returns stay above −100%), every value of the drawdown series
computed inside `calculate_drawdown_metrics` is ≤ 0. -/
theorem C8_drawdown_metrics (equity : List ℚ) (h2 : 2 ≤ equity.length) :
    ((∀ x ∈ equity, 0 < x) → ∀ d ∈ drawdown_series equity, d ≤ 0) ∧
      max_drawdown equity ∈ drawdown_series equity ∧
      (∀ d ∈ drawdown_series equity, max_drawdown equity ≤ d) := by
  have hmin : (drawdown_series equity).min? =
      some (max_drawdown equity) := by
    rcases hopt : (drawdown_series equity).min? with _ | m
    · rw [List.min?_eq_none_iff] at hopt
      have := length_drawdown_series equity
      rw [hopt] at this
      simp at this
      omega
    · rw [max_drawdown, if_neg (by omega), hopt]
      rfl
  refine ⟨?_, ?_, ?_⟩
  · intro hpos d hd
    rcases List.mem_iff_getElem.mp hd with ⟨i, hilen, rfl⟩
    have hi : i < equity.length := by
      rw [length_drawdown_series] at hilen; exact hilen
    rw [← List.getD_eq_getElem _ 0 hilen, getD_drawdown_series equity i hi]
    rcases cummax_dominates equity hpos i hi with ⟨hle, hmpos⟩
    exact div_nonpos_iff.mpr (Or.inr ⟨by linarith, le_of_lt hmpos⟩)
  · exact List.min?_mem (fun a b => min_choice a b) hmin
  · intro d hd
    exact (List.le_min?_iff (fun a b c => le_min_iff) hmin).mp le_rfl d hd

/-- C8 witness. -/
theorem C8_drawdown_metrics_witness :
    (2 ≤ [(4 : ℚ), 2, 3].length ∧ ∀ x ∈ [(4 : ℚ), 2, 3], 0 < x) ∧
      (∀ d ∈ drawdown_series [(4 : ℚ), 2, 3], d ≤ 0) ∧
      max_drawdown [(4 : ℚ), 2, 3] ∈ drawdown_series [(4 : ℚ), 2, 3] ∧
      (∀ d ∈ drawdown_series [(4 : ℚ), 2, 3],
        max_drawdown [(4 : ℚ), 2, 3] ≤ d) :=
  ⟨⟨by decide, by norm_num⟩,
    (C8_drawdown_metrics [(4 : ℚ), 2, 3] (by decide)).1 (by norm_num),
    (C8_drawdown_metrics [(4 : ℚ), 2, 3] (by decide)).2.1,
    (C8_drawdown_metrics [(4 : ℚ), 2, 3] (by decide)).2.2⟩

/-! ## Claims C9 and C10 -/

/-- A linearly interpolated percentile at `q ∈ (0, 1)` is a convex
combination of two adjacent order statistics, so the sample minimum is at
or below it. -/
theorem min_le_percentile_linear (xs : List ℚ) (q : ℚ)
    (h2 : 2 ≤ xs.length) (hq0 : 0 < q) (hq1 : q < 1) :
    ∃ x ∈ xs, x ≤ percentile_linear xs q := by
  have hP : percentile_linear xs q =
      (List.insertionSort (· ≤ ·) xs).getD
          (⌊q * ((xs.length : ℚ) - 1)⌋.toNat) 0 +
        (q * ((xs.length : ℚ) - 1) -
            ((⌊q * ((xs.length : ℚ) - 1)⌋.toNat : ℕ) : ℚ)) *
          ((List.insertionSort (· ≤ ·) xs).getD
              (⌊q * ((xs.length : ℚ) - 1)⌋.toNat + 1)
              ((List.insertionSort (· ≤ ·) xs).getD
                (⌊q * ((xs.length : ℚ) - 1)⌋.toNat) 0) -
            (List.insertionSort (· ≤ ·) xs).getD
              (⌊q * ((xs.length : ℚ) - 1)⌋.toNat) 0) := rfl
  set s := List.insertionSort (· ≤ ·) xs with hs
  have hsorted : List.Sorted (· ≤ ·) s := List.sorted_insertionSort _ xs
  have hperm : s.Perm xs := List.perm_insertionSort _ xs
  have hslen : s.length = xs.length := hperm.length_eq
  set rank := q * ((xs.length : ℚ) - 1) with hrank
  have hn1 : (1 : ℚ) ≤ (xs.length : ℚ) - 1 := by
    have hcast : (2 : ℚ) ≤ (xs.length : ℚ) := by exact_mod_cast h2
    linarith
  have hrank0 : 0 ≤ rank := mul_nonneg hq0.le (by linarith)
  have hrankub : rank < (xs.length : ℚ) - 1 := by
    have := mul_lt_mul_of_pos_right hq1 (show (0 : ℚ) < (xs.length : ℚ) - 1
      by linarith)
    simpa using this
  have hfloor0 : (0 : ℤ) ≤ ⌊rank⌋ := Int.floor_nonneg.mpr hrank0
  set lo := ⌊rank⌋.toNat with hlo
  have hlocastZ : (lo : ℤ) = ⌊rank⌋ := Int.toNat_of_nonneg hfloor0
  have hlocast : ((lo : ℕ) : ℚ) = ((⌊rank⌋ : ℤ) : ℚ) := by
    exact_mod_cast congrArg (fun z : ℤ => (z : ℚ)) hlocastZ
  have hfloor_lt : ⌊rank⌋ < (xs.length : ℤ) - 1 := by
    rw [Int.floor_lt]
    push_cast
    exact hrankub
  have hlo_lt : lo + 1 < xs.length := by omega
  have hlo_lt_s : lo < s.length := by omega
  have hlo1_lt_s : lo + 1 < s.length := by omega
  have h0_lt_s : 0 < s.length := by omega
  have hfrac0 : 0 ≤ rank - ((lo : ℕ) : ℚ) := by
    rw [hlocast]
    exact sub_nonneg.mpr (Int.floor_le rank)
  have hab : s.getD lo 0 ≤ s.getD (lo + 1) (s.getD lo 0) := by
    rw [List.getD_eq_getElem _ _ hlo_lt_s, List.getD_eq_getElem _ _ hlo1_lt_s]
    exact hsorted.rel_get_of_lt (show (⟨lo, hlo_lt_s⟩ : Fin s.length) <
      ⟨lo + 1, hlo1_lt_s⟩ from by simp)
  have h0lo : s.getD 0 0 ≤ s.getD lo 0 := by
    rcases Nat.eq_zero_or_pos lo with hz | hpos
    · rw [hz]
    · rw [List.getD_eq_getElem _ _ h0_lt_s, List.getD_eq_getElem _ _ hlo_lt_s]
      exact hsorted.rel_get_of_lt (show (⟨0, h0_lt_s⟩ : Fin s.length) <
        ⟨lo, hlo_lt_s⟩ from hpos)
  have hpe : s.getD lo 0 ≤ percentile_linear xs q := by
    rw [hP]
    exact le_add_of_nonneg_right
      (mul_nonneg hfrac0 (sub_nonneg.mpr hab))
  refine ⟨s.getD 0 0, ?_, le_trans h0lo hpe⟩
  rw [List.getD_eq_getElem _ _ h0_lt_s]
  exact hperm.mem_iff.mp (List.getElem_mem h0_lt_s)

/-- C9: with at least 2 non-missing strategy returns and a confidence
level in (0,1), the tail-risk report satisfies
`conditional_var ≤ historical_var`: every return kept by the filter
`returns <= hist_var` is at most `hist_var`, so their mean is too, and
the empty-tail fallback returns `hist_var` itself. -/
theorem C9_conditional_var_le_historical_var (returns : List ℚ)
    (conf : ℚ) (h2 : 2 ≤ returns.length) (hc0 : 0 < conf)
    (hc1 : conf < 1) :
    (calculate_tail_risk_metrics returns conf).conditional_var ≤
      (calculate_tail_risk_metrics returns conf).historical_var := by
  have hlen2 : ¬ returns.length < 2 := by omega
  have hhv : (calculate_tail_risk_metrics returns conf).historical_var =
      percentile_linear returns (1 - conf) := by
    rw [calculate_tail_risk_metrics, if_neg hlen2]
  have hcv : (calculate_tail_risk_metrics returns conf).conditional_var =
      (if (returns.filter
            (fun r => r ≤ percentile_linear returns (1 - conf))).length ≠ 0
        then (returns.filter
            (fun r => r ≤ percentile_linear returns (1 - conf))).sum /
          ((returns.filter
            (fun r => r ≤ percentile_linear returns (1 - conf))).length : ℚ)
        else percentile_linear returns (1 - conf)) := by
    rw [calculate_tail_risk_metrics, if_neg hlen2]
  rw [hhv, hcv]
  set h := percentile_linear returns (1 - conf) with hh
  set tail := returns.filter (fun r => r ≤ h) with htail
  by_cases hne : tail.length ≠ 0
  · rw [if_pos hne]
    have hall : ∀ x ∈ tail, x ≤ h := by
      intro x hx
      have hmem := List.mem_filter.mp hx
      simpa using hmem.2
    have hsum : tail.sum ≤ tail.length • h := List.sum_le_card_nsmul tail h hall
    rw [nsmul_eq_mul] at hsum
    have hpos : (0 : ℚ) < (tail.length : ℚ) := by
      exact_mod_cast Nat.pos_of_ne_zero hne
    rw [div_le_iff₀ hpos]
    linarith
  · rw [if_neg hne]

/-- C9 witness (Scenario C returns at 95% confidence). -/
theorem C9_conditional_var_le_historical_var_witness :
    (2 ≤ [(1 : ℚ)/100, -1/50, 3/200, -3/100, 1/200].length ∧
        (0 : ℚ) < 19/20 ∧ (19 : ℚ)/20 < 1) ∧
      (calculate_tail_risk_metrics [(1 : ℚ)/100, -1/50, 3/200, -3/100, 1/200]
          (19/20)).conditional_var ≤
        (calculate_tail_risk_metrics [(1 : ℚ)/100, -1/50, 3/200, -3/100, 1/200]
          (19/20)).historical_var :=
  ⟨⟨by decide, by norm_num, by norm_num⟩,
    C9_conditional_var_le_historical_var
      [(1 : ℚ)/100, -1/50, 3/200, -3/100, 1/200] (19/20)
      (by decide) (by norm_num) (by norm_num)⟩

/-- C10 (implicit): with at least 2 returns and confidence in (0,1), the
set of returns at or below the historical VaR is non-empty — the sample
minimum is at or below any interpolated percentile — so the documented
fallback of conditional VaR to historical VaR is unreachable and
`conditional_var` is always the mean of a non-empty left tail. -/
theorem C10_left_tail_nonempty (returns : List ℚ) (conf : ℚ)
    (h2 : 2 ≤ returns.length) (hc0 : 0 < conf) (hc1 : conf < 1) :
    (returns.filter (fun r => r ≤
        (calculate_tail_risk_metrics returns conf).historical_var)) ≠ [] ∧
      (calculate_tail_risk_metrics returns conf).conditional_var =
        (returns.filter (fun r => r ≤
            (calculate_tail_risk_metrics returns conf).historical_var)).sum /
          ((returns.filter (fun r => r ≤
            (calculate_tail_risk_metrics returns conf).historical_var)).length
              : ℚ) := by
  have hlen2 : ¬ returns.length < 2 := by omega
  have hhv : (calculate_tail_risk_metrics returns conf).historical_var =
      percentile_linear returns (1 - conf) := by
    rw [calculate_tail_risk_metrics, if_neg hlen2]
  have hq0 : (0 : ℚ) < 1 - conf := by linarith
  have hq1 : 1 - conf < 1 := by linarith
  obtain ⟨x, hx, hxle⟩ :=
    min_le_percentile_linear returns (1 - conf) h2 hq0 hq1
  have hxmem : x ∈ returns.filter (fun r => r ≤
      (calculate_tail_risk_metrics returns conf).historical_var) := by
    rw [List.mem_filter]
    refine ⟨hx, ?_⟩
    rw [hhv]
    simpa using hxle
  have hne : returns.filter (fun r => r ≤
      (calculate_tail_risk_metrics returns conf).historical_var) ≠ [] :=
    List.ne_nil_of_mem hxmem
  refine ⟨hne, ?_⟩
  have hcv : (calculate_tail_risk_metrics returns conf).conditional_var =
      (if (returns.filter
            (fun r => r ≤ percentile_linear returns (1 - conf))).length ≠ 0
        then (returns.filter
            (fun r => r ≤ percentile_linear returns (1 - conf))).sum /
          ((returns.filter
            (fun r => r ≤ percentile_linear returns (1 - conf))).length : ℚ)
        else percentile_linear returns (1 - conf)) := by
    rw [calculate_tail_risk_metrics, if_neg hlen2]
  rw [hcv, hhv] at *
  rw [if_pos ?hlenne]
  case hlenne =>
    intro hzero
    rw [List.length_eq_zero] at hzero
    exact hne (by rw [hhv]; exact hzero)

/-- C10 witness (Scenario C returns at 95% confidence). -/
theorem C10_left_tail_nonempty_witness :
    (2 ≤ [(1 : ℚ)/100, -1/50, 3/200, -3/100, 1/200].length ∧
        (0 : ℚ) < 19/20 ∧ (19 : ℚ)/20 < 1) ∧
      ([(1 : ℚ)/100, -1/50, 3/200, -3/100, 1/200].filter (fun r => r ≤
          (calculate_tail_risk_metrics
            [(1 : ℚ)/100, -1/50, 3/200, -3/100, 1/200]
            (19/20)).historical_var)) ≠ [] :=
  ⟨⟨by decide, by norm_num, by norm_num⟩,
    (C10_left_tail_nonempty [(1 : ℚ)/100, -1/50, 3/200, -3/100, 1/200]
      (19/20) (by decide) (by norm_num) (by norm_num)).1⟩

end Quant
